import Mathlib

/-!
Verification of the similarity-search subsystem of the meeting-assistant
repository (`database.py`): the vector codec (`_serialize_embeddings`,
`_deserialize_embeddings`), cosine similarity (`_cosine_similarity`) and the
two search entry points (`search_meetings`, `get_similar_meetings`).

Modelling conventions:
* Python floats are modelled as exact rationals (ℚ); the numeric claims under
  scrutiny are about control flow, ordering and exact zero/threshold tests,
  for which exact arithmetic is the standard idealisation.
* A stored `float32` is modelled at the bit level: a natural number `< 2^32`
  holding the IEEE-754 binary32 pattern, exactly what `np.float32.tobytes`
  writes.  `round32` performs genuine round-to-nearest-even binary32 rounding
  of a rational (the `np.array(v, dtype=np.float32)` conversion) and `val32`
  maps a bit pattern back to the rational it denotes (the `np.frombuffer`
  + `tolist()` direction).  For exponent 255 (inf/NaN patterns, which the
  provider never emits and the claims exclude) `val32` extends the normal
  formula; no theorem below depends on that corner.
* Byte order is little-endian, matching `tobytes` on the platforms the
  repository targets and the byte order documented for the codec.
-/

/-- Round a rational to the nearest integer, ties to even
(the IEEE-754 default rounding used by numpy's float32 conversion). -/
def rne (q : ℚ) : ℤ :=
  if q - ⌊q⌋ < 1/2 then ⌊q⌋
  else if 1/2 < q - ⌊q⌋ then ⌊q⌋ + 1
  else if Even ⌊q⌋ then ⌊q⌋ else ⌊q⌋ + 1

theorem rne_le {q : ℚ} {B : ℤ} (h : q ≤ B) : rne q ≤ B := by
  have hfl : ⌊q⌋ ≤ B := (Int.floor_le_floor h).trans_eq (Int.floor_intCast B)
  have key : ¬(q - ⌊q⌋ < 1/2) → ⌊q⌋ + 1 ≤ B := by
    intro h1
    rcases lt_or_eq_of_le hfl with h2 | h2
    · omega
    · exfalso
      apply h1
      have hq : q = (B : ℚ) := le_antisymm h (by rw [← h2]; exact Int.floor_le q)
      rw [hq, Int.floor_intCast]
      norm_num
  unfold rne
  split_ifs with h1 h2 h3
  · exact hfl
  · exact key h1
  · exact hfl
  · exact key h1

theorem le_rne {q : ℚ} {A : ℤ} (h : (A : ℚ) ≤ q) : A ≤ rne q := by
  have hfl : A ≤ ⌊q⌋ := Int.le_floor.mpr h
  unfold rne
  split_ifs <;> omega

/-- The IEEE-754 binary32 bit pattern produced by rounding an exact rational
to single precision with round-to-nearest-even (numpy's
`np.array(_, dtype=np.float32)` conversion). -/
def round32 (x : ℚ) : ℕ :=
  if x = 0 then 0
  else
    let s : ℕ := if x < 0 then 2^31 else 0
    let m : ℚ := |x|
    if m < (2:ℚ)^(-126 : ℤ) then
      -- subnormal range: unit in the last place is 2^(-149)
      s + (rne (m * (2:ℚ)^(149 : ℤ))).toNat
    else
      let e : ℤ := Int.log 2 m
      let mant : ℤ := rne (m / (2:ℚ)^(e - 23))
      let e' : ℤ := if mant = 2^24 then e + 1 else e
      let mant' : ℤ := if mant = 2^24 then 2^23 else mant
      if 127 < e' then s + 255 * 2^23   -- overflow to infinity
      else s + (e' + 127).toNat * 2^23 + (mant' - 2^23).toNat

theorem round32_lt (x : ℚ) : round32 x < 2^32 := by
  unfold round32
  by_cases h0 : x = 0
  · simp [h0]
  · simp only [h0, if_false]
    set s : ℕ := if x < 0 then 2^31 else 0 with hs
    have hsle : s ≤ 2^31 := by
      rw [hs]; split <;> norm_num
    have hm : 0 < |x| := abs_pos.mpr h0
    by_cases hsub : |x| < (2:ℚ)^(-126 : ℤ)
    · simp only [hsub, if_true]
      have h1 : |x| * (2:ℚ)^(149 : ℤ) ≤ ((2^23 : ℤ) : ℚ) := by
        have e1 : (2:ℚ)^(-126 : ℤ) * (2:ℚ)^(149 : ℤ) = ((2^23 : ℤ) : ℚ) := by
          rw [← zpow_add₀ (by norm_num : (2:ℚ) ≠ 0)]
          push_cast
          norm_num
        have e2 : (0:ℚ) < (2:ℚ)^(149 : ℤ) := by positivity
        calc |x| * (2:ℚ)^(149 : ℤ) ≤ (2:ℚ)^(-126 : ℤ) * (2:ℚ)^(149 : ℤ) :=
              mul_le_mul_of_nonneg_right hsub.le e2.le
          _ = ((2^23 : ℤ) : ℚ) := e1
      have h2 : rne (|x| * (2:ℚ)^(149 : ℤ)) ≤ 2^23 := rne_le h1
      have h3 : (rne (|x| * (2:ℚ)^(149 : ℤ))).toNat ≤ 2^23 := by omega
      omega
    · simp only [hsub, if_false]
      set e : ℤ := Int.log 2 |x| with he
      set mant : ℤ := rne (|x| / (2:ℚ)^(e - 23)) with hmant
      have hepos : (0:ℚ) < (2:ℚ)^(e - 23) := by positivity
      have hub : |x| < (2:ℚ)^(e + 1) := by
        have := Int.lt_zpow_succ_log_self (b := 2) (by norm_num) |x|
        simpa [he] using this
      have hmant_le : mant ≤ 2^24 := by
        apply rne_le
        rw [div_le_iff₀ hepos]
        have h4 : ((2^24 : ℤ) : ℚ) * (2:ℚ)^(e - 23) = (2:ℚ)^(e + 1) := by
          rw [show ((2^24 : ℤ) : ℚ) = (2:ℚ)^(24 : ℤ) by push_cast; norm_num]
          rw [← zpow_add₀ (by norm_num : (2:ℚ) ≠ 0)]
          ring_nf
        rw [h4]
        exact hub.le
      by_cases hov : 127 < (if mant = 2^24 then e + 1 else e)
      · simp only [hov, if_true]
        omega
      · simp only [hov, if_false]
        set e' : ℤ := if mant = 2^24 then e + 1 else e with he'
        set mant' : ℤ := if mant = 2^24 then 2^23 else mant with hm'
        have h5 : e' ≤ 127 := not_lt.mp hov
        have h6 : (e' + 127).toNat ≤ 254 := by omega
        have h7 : mant' ≤ 2^24 - 1 := by
          rw [hm']; split
          · norm_num
          · omega
        have h8 : (mant' - 2^23).toNat ≤ 2^23 - 1 := by omega
        have h9 : (e' + 127).toNat * 2^23 ≤ 254 * 2^23 := Nat.mul_le_mul_right _ h6
        omega

/-- The exact rational denoted by an IEEE-754 binary32 bit pattern
(the value `np.frombuffer(_, dtype=np.float32).tolist()` yields).
Exponent 255 (inf/NaN) is idealised by extending the normal-number formula;
the provider contract and all claims concern finite values only. -/
def val32 (n : ℕ) : ℚ :=
  let s : ℕ := n / 2^31 % 2
  let ex : ℕ := n / 2^23 % 256
  let fr : ℕ := n % 2^23
  let mag : ℚ :=
    if ex = 0 then (fr : ℚ) / ((2^149 : ℕ) : ℚ)   -- fr * 2^(-149)
    else ((2^23 + fr : ℕ) : ℚ) * ((2^ex : ℕ) : ℚ) / ((2^150 : ℕ) : ℚ)  -- (2^23+fr) * 2^(ex-150)
  if s = 1 then -mag else mag

instance {ε α : Type} [DecidableEq ε] [DecidableEq α] : DecidableEq (Except ε α) := fun x y =>
  match x, y with
  | .ok a, .ok b =>
    if h : a = b then isTrue (by rw [h]) else isFalse (fun hc => h (Except.ok.inj hc))
  | .error e, .error f =>
    if h : e = f then isTrue (by rw [h]) else isFalse (fun hc => h (Except.error.inj hc))
  | .ok _, .error _ => isFalse (fun hc => Except.noConfusion hc)
  | .error _, .ok _ => isFalse (fun hc => Except.noConfusion hc)

/-- Error taxonomy of the similarity subsystem (spec §7). -/
inductive DBError where
  | malformedEncoding
  | dimensionMismatch
  | providerError
deriving DecidableEq

/-- The four bytes of a 32-bit word, little-endian (`np.float32.tobytes`). -/
def bytesOfWord (n : ℕ) : List ℕ := [n % 256, n / 2^8 % 256, n / 2^16 % 256, n / 2^24 % 256]

/-- `_serialize_embeddings` (database.py): `if not embeddings: return b''`
then `np.array(embeddings, dtype=np.float32).tobytes()` — round each element
to binary32 and emit its four bytes, little-endian. -/
def _serialize_embeddings (e : List ℚ) : List ℕ :=
  if e.isEmpty then []
  else (e.map round32).flatMap bytesOfWord

/-- Group a byte sequence into little-endian 32-bit words, four bytes each
(the reinterpretation `np.frombuffer(_, dtype=np.float32)` performs). -/
def bytesToWords : List ℕ → List ℕ
  | b0 :: b1 :: b2 :: b3 :: rest => (b0 + 2^8 * b1 + 2^16 * b2 + 2^24 * b3) :: bytesToWords rest
  | _ => []

/-- `_deserialize_embeddings` (database.py): `if not embeddings_blob: return []`
then `np.frombuffer(embeddings_blob, dtype=np.float32).tolist()`.
`np.frombuffer` raises `ValueError` ("buffer size must be a multiple of
element size") exactly when the byte length is not a multiple of 4; that
failure is the MalformedEncoding error of the spec. -/
def _deserialize_embeddings (b : List ℕ) : Except DBError (List ℚ) :=
  if b.isEmpty then .ok []
  else if b.length % 4 ≠ 0 then .error .malformedEncoding
  else .ok ((bytesToWords b).map val32)

theorem bytesToWords_cons (n : ℕ) (hn : n < 2^32) (rest : List ℕ) :
    bytesToWords (n % 256 :: (n / 2^8 % 256 :: (n / 2^16 % 256 :: (n / 2^24 % 256 :: rest)))) =
      n :: bytesToWords rest := by
  rw [bytesToWords]
  congr 1
  omega

theorem bytesToWords_flatMap (ws : List ℕ) (h : ∀ w ∈ ws, w < 2^32) :
    bytesToWords (ws.flatMap bytesOfWord) = ws := by
  induction ws with
  | nil => rfl
  | cons w ws ih =>
    rw [List.flatMap_cons]
    show bytesToWords (w % 256 :: (w / 2^8 % 256 :: (w / 2^16 % 256 :: (w / 2^24 % 256 ::
      ws.flatMap bytesOfWord)))) = w :: ws
    rw [bytesToWords_cons w (h w (List.mem_cons_self w ws)) _]
    rw [ih (fun w' hw' => h w' (List.mem_cons_of_mem w hw'))]

theorem length_flatMap_bytesOfWord (ws : List ℕ) :
    (ws.flatMap bytesOfWord).length = 4 * ws.length := by
  induction ws with
  | nil => rfl
  | cons w ws ih =>
    rw [List.flatMap_cons, List.length_append, ih]
    show 4 + 4 * ws.length = 4 * (ws.length + 1)
    omega

theorem length_serialize (e : List ℚ) :
    (_serialize_embeddings e).length = 4 * e.length := by
  unfold _serialize_embeddings
  by_cases h : e.isEmpty
  · simp [List.isEmpty_iff.mp h]
  · rw [if_neg h, length_flatMap_bytesOfWord, List.length_map]

/-!
Exact representation of similarity scores.  `_cosine_similarity` returns
`dot / (norm1 * norm2)` where each norm is a square root; every value it can
return has the exact form `q * √r` with `q r : ℚ` and `0 ≤ r`.  We carry that
form so the whole search pipeline stays executable, and we prove that the
Boolean comparisons used for thresholding and sorting agree with the real
ordering of the values denoted (`SqrtRat.le_iff`, `SqrtRat.lt_iff`).
-/

/-- A score of the form `q * √r` (`0 ≤ r`), the exact shape of every value
`_cosine_similarity` can return. -/
structure SqrtRat where
  q : ℚ
  r : ℚ
  hr : 0 ≤ r

/-- The real number a `SqrtRat` denotes. -/
noncomputable def SqrtRat.toReal (x : SqrtRat) : ℝ := (x.q : ℝ) * Real.sqrt (x.r : ℝ)

instance : DecidableEq SqrtRat := fun a b =>
  decidable_of_iff (a.q = b.q ∧ a.r = b.r) (by cases a; cases b; simp)

/-- Decide `x ≤ y` for the denoted real values, by sign analysis and squaring. -/
def SqrtRat.le (x y : SqrtRat) : Bool :=
  if x.q < 0 then
    if y.q < 0 then decide (y.q^2 * y.r ≤ x.q^2 * x.r) else true
  else
    if y.q < 0 then decide (x.q^2 * x.r = 0 ∧ y.q^2 * y.r = 0)
    else decide (x.q^2 * x.r ≤ y.q^2 * y.r)

/-- Decide `x < y` for the denoted real values. -/
def SqrtRat.lt (x y : SqrtRat) : Bool := !(SqrtRat.le y x)

/-- A plain rational as a score (`t * √1`), used for threshold constants. -/
def SqrtRat.ofRat (t : ℚ) : SqrtRat := ⟨t, 1, zero_le_one⟩

theorem SqrtRat.toReal_ofRat (t : ℚ) : (SqrtRat.ofRat t).toReal = (t : ℝ) := by
  unfold SqrtRat.ofRat SqrtRat.toReal
  simp

theorem SqrtRat.sq_toReal (x : SqrtRat) : x.toReal^2 = ((x.q^2 * x.r : ℚ) : ℝ) := by
  unfold SqrtRat.toReal
  rw [mul_pow, Real.sq_sqrt (by exact_mod_cast x.hr)]
  push_cast
  ring

theorem SqrtRat.toReal_nonneg (x : SqrtRat) (h : 0 ≤ x.q) : 0 ≤ x.toReal :=
  mul_nonneg (by exact_mod_cast h) (Real.sqrt_nonneg _)

theorem SqrtRat.toReal_nonpos (x : SqrtRat) (h : x.q < 0) : x.toReal ≤ 0 := by
  have h1 : (x.q : ℝ) ≤ 0 := by exact_mod_cast h.le
  have h2 : (0:ℝ) ≤ Real.sqrt (x.r : ℝ) := Real.sqrt_nonneg _
  unfold SqrtRat.toReal
  nlinarith

theorem SqrtRat.toReal_eq_zero_iff (x : SqrtRat) : x.toReal = 0 ↔ x.q^2 * x.r = 0 := by
  constructor
  · intro h
    have h2 : x.toReal^2 = 0 := by rw [h]; ring
    rw [SqrtRat.sq_toReal] at h2
    exact_mod_cast h2
  · intro h
    have h2 : x.toReal^2 = 0 := by rw [SqrtRat.sq_toReal, h]; norm_num
    exact (pow_eq_zero_iff two_ne_zero).mp h2

theorem sq_le_sq_of_nonneg {a b : ℝ} (ha : 0 ≤ a) (hb : 0 ≤ b) : a ≤ b ↔ a^2 ≤ b^2 :=
  ⟨fun h => pow_le_pow_left ha h 2, fun h => le_of_pow_le_pow_left two_ne_zero hb h⟩

theorem SqrtRat.le_iff (x y : SqrtRat) : x.le y = true ↔ x.toReal ≤ y.toReal := by
  unfold SqrtRat.le
  split_ifs with hx hy hy
  · -- x.q < 0, y.q < 0 : both values nonpositive; compare squares, flipped
    rw [decide_eq_true_iff]
    have hx' := x.toReal_nonpos hx
    have hy' := y.toReal_nonpos hy
    have key : x.toReal ≤ y.toReal ↔ (-y.toReal) ≤ (-x.toReal) := by constructor <;> intro h <;> linarith
    rw [key, sq_le_sq_of_nonneg (by linarith) (by linarith)]
    rw [neg_sq, neg_sq, SqrtRat.sq_toReal, SqrtRat.sq_toReal]
    exact ⟨fun h => by exact_mod_cast h, fun h => by exact_mod_cast h⟩
  · -- x.q < 0 ≤ y.q : always true
    simp only [true_iff]
    exact le_trans (x.toReal_nonpos hx) (y.toReal_nonneg (not_lt.mp hy))
  · -- 0 ≤ x.q, y.q < 0 : x ≤ y only if both denote 0
    rw [decide_eq_true_iff]
    have hx' := x.toReal_nonneg (not_lt.mp hx)
    have hy' := y.toReal_nonpos hy
    constructor
    · rintro ⟨h1, h2⟩
      rw [← SqrtRat.toReal_eq_zero_iff] at h1 h2
      rw [h1, h2]
    · intro h
      have h1 : x.toReal = 0 := le_antisymm (by linarith) hx'
      have h2 : y.toReal = 0 := le_antisymm hy' (by linarith)
      exact ⟨(SqrtRat.toReal_eq_zero_iff x).mp h1, (SqrtRat.toReal_eq_zero_iff y).mp h2⟩
  · -- both nonnegative : compare squares
    rw [decide_eq_true_iff]
    have hx' := x.toReal_nonneg (not_lt.mp hx)
    have hy' := y.toReal_nonneg (not_lt.mp hy)
    rw [sq_le_sq_of_nonneg hx' hy', SqrtRat.sq_toReal, SqrtRat.sq_toReal]
    exact ⟨fun h => by exact_mod_cast h, fun h => by exact_mod_cast h⟩

theorem SqrtRat.lt_iff (x y : SqrtRat) : x.lt y = true ↔ x.toReal < y.toReal := by
  have hiff := SqrtRat.le_iff y x
  unfold SqrtRat.lt
  cases hle : SqrtRat.le y x
  · rw [hle] at hiff
    simp only [Bool.not_false, true_iff]
    exact not_le.mp (fun hc => by rw [← hiff] at hc; exact absurd hc (by simp))
  · rw [hle] at hiff
    simp only [Bool.not_true, Bool.false_eq_true, false_iff]
    exact not_lt.mpr (hiff.mp rfl)

/-!
Cosine similarity and the search pipeline.
-/

/-- `np.dot` of two equal-length 1-d vectors: sum of elementwise products. -/
def dotQ (a b : List ℚ) : ℚ := (List.zipWith (fun x y => x * y) a b).sum

/-- The squared Euclidean norm: `np.linalg.norm(v)` is `√(normSq v)`.
The code's test `norm == 0` holds iff `normSq v = 0` in exact arithmetic. -/
def normSq (v : List ℚ) : ℚ := dotQ v v

theorem normSq_nonneg (v : List ℚ) : 0 ≤ normSq v := by
  unfold normSq dotQ
  induction v with
  | nil => simp
  | cons x xs ih =>
    rw [List.zipWith_cons_cons, List.sum_cons]
    nlinarith [mul_self_nonneg x]

/-- The body of `_cosine_similarity`'s `try:` block (database.py).
`np.dot` raises a `ValueError` on shape mismatch (DimensionMismatch); with
matching lengths, a zero norm returns `0.0`, otherwise
`dot / (norm1 * norm2) = dot / (√(normSq a) * √(normSq b))`, carried exactly
as the `SqrtRat` value `(dot / (normSq a * normSq b)) * √(normSq a * normSq b)`. -/
def cosineSimExc (a b : List ℚ) : Except DBError SqrtRat :=
  if a.length ≠ b.length then .error .dimensionMismatch
  else if normSq a = 0 ∨ normSq b = 0 then .ok (SqrtRat.ofRat 0)
  else .ok ⟨dotQ a b / (normSq a * normSq b), normSq a * normSq b,
            mul_nonneg (normSq_nonneg a) (normSq_nonneg b)⟩

/-- `_cosine_similarity` (database.py): the `try/except` wrapper — any internal
exception (in particular the shape mismatch from `np.dot`) is caught and the
function returns `0.0`. -/
def _cosine_similarity (a b : List ℚ) : SqrtRat :=
  match cosineSimExc a b with
  | .error _ => SqrtRat.ofRat 0
  | .ok s => s

/-- Sanity: in the generic (nonzero, equal-length) case the carried `SqrtRat`
denotes exactly `dot / (norm1 * norm2)`. -/
theorem cosine_toReal (a b : List ℚ) (hl : a.length = b.length)
    (ha : normSq a ≠ 0) (hb : normSq b ≠ 0) :
    (_cosine_similarity a b).toReal =
      (dotQ a b : ℝ) / (Real.sqrt (normSq a : ℝ) * Real.sqrt (normSq b : ℝ)) := by
  have ha' : (0:ℝ) < (normSq a : ℝ) := by
    have := normSq_nonneg a
    have : (0:ℝ) ≤ (normSq a : ℝ) := by exact_mod_cast this
    rcases lt_or_eq_of_le this with h | h
    · exact h
    · exact absurd (by exact_mod_cast h.symm) ha
  have hb' : (0:ℝ) < (normSq b : ℝ) := by
    have := normSq_nonneg b
    have : (0:ℝ) ≤ (normSq b : ℝ) := by exact_mod_cast this
    rcases lt_or_eq_of_le this with h | h
    · exact h
    · exact absurd (by exact_mod_cast h.symm) hb
  unfold _cosine_similarity cosineSimExc
  rw [if_neg (by omega), if_neg (by tauto)]
  unfold SqrtRat.toReal
  simp only
  have e1 : Real.sqrt ((normSq a : ℝ) * (normSq b : ℝ)) =
      Real.sqrt (normSq a : ℝ) * Real.sqrt (normSq b : ℝ) := Real.sqrt_mul ha'.le _
  have e2 : Real.sqrt (normSq a : ℝ) * Real.sqrt (normSq a : ℝ) = (normSq a : ℝ) :=
    Real.mul_self_sqrt ha'.le
  have e3 : Real.sqrt (normSq b : ℝ) * Real.sqrt (normSq b : ℝ) = (normSq b : ℝ) :=
    Real.mul_self_sqrt hb'.le
  have hsa : (0:ℝ) < Real.sqrt (normSq a : ℝ) := Real.sqrt_pos.mpr ha'
  have hsb : (0:ℝ) < Real.sqrt (normSq b : ℝ) := Real.sqrt_pos.mpr hb'
  push_cast
  rw [e1]
  have e4 : (Real.sqrt (normSq a : ℝ) * Real.sqrt (normSq b : ℝ)) *
      (Real.sqrt (normSq a : ℝ) * Real.sqrt (normSq b : ℝ)) = (normSq a : ℝ) * (normSq b : ℝ) := by
    rw [mul_mul_mul_comm, e2, e3]
  rw [div_mul_eq_mul_div, div_eq_div_iff (by positivity) (by positivity), mul_assoc, e4]

/-- A row of the `meetings` table as the similarity engine sees it:
its id and the `embeddings` blob column (NULL or a byte string). -/
structure MeetingRow where
  id : ℤ
  embeddings : Option (List ℕ)
deriving DecidableEq

/-- One scored search result (the id together with its similarity score;
the passthrough display columns — title, date, summary, truncated
transcript — are irrelevant to every claim and elided). -/
structure Scored where
  id : ℤ
  similarity : SqrtRat
deriving DecidableEq

/-- What a search call produces for the user: the returned list and the
`st.error` message displayed, if any (`none` = no error shown). -/
structure SearchOutcome where
  results : List Scored
  err : Option DBError
deriving DecidableEq

/-- Descending similarity order on scored rows, as a relation:
`scoredGE a b` means score of `a` is ≥ score of `b`. -/
def scoredGE (a b : Scored) : Prop := SqrtRat.le b.similarity a.similarity = true

instance : DecidableRel scoredGE := fun a b =>
  Bool.decEq (SqrtRat.le b.similarity a.similarity) true

instance : IsTotal Scored scoredGE :=
  ⟨fun a b => by
    unfold scoredGE
    rcases le_total b.similarity.toReal a.similarity.toReal with h | h
    · exact Or.inl ((SqrtRat.le_iff _ _).mpr h)
    · exact Or.inr ((SqrtRat.le_iff _ _).mpr h)⟩

instance : IsTrans Scored scoredGE :=
  ⟨fun a b c hab hbc => by
    unfold scoredGE at hab hbc ⊢
    rw [SqrtRat.le_iff] at hab hbc ⊢
    exact le_trans hbc hab⟩

/-- Python's `results.sort(key=lambda x: x['similarity'], reverse=True)`:
a stable sort into descending score order.  Python's timsort and insertion
sort are both stable, hence produce identical output for the same total
preorder; we use Mathlib's structurally-recursive (hence executable)
insertion sort. -/
def sortBySimDesc (l : List Scored) : List Scored := List.insertionSort scoredGE l

/-- Python's `l[:n]` slice: for `n ≥ 0` the first `n` elements, for `n < 0`
all but the last `|n|` elements (clamped at the empty list). -/
def pySlice {α : Type} (n : ℤ) (l : List α) : List α :=
  if 0 ≤ n then l.take n.toNat else l.take (l.length - (-n).toNat)

/-- The scoring loop shared by `search_meetings` (threshold `0.3`,
`skipEmpty = true` for its `if embeddings_blob:` guard) and
`get_similar_meetings` (threshold `0.2`, no guard): deserialize each row's
blob (a failure aborts the whole loop, like the uncaught `ValueError`),
score it against the query, and keep it iff `similarity > t` (strict). -/
def scoreRows (qe : List ℚ) (t : ℚ) (skipEmpty : Bool) :
    List MeetingRow → Except DBError (List Scored)
  | [] => .ok []
  | r :: rest =>
    match r.embeddings with
    | none => scoreRows qe t skipEmpty rest
    | some blob =>
      if skipEmpty && blob.isEmpty then scoreRows qe t skipEmpty rest
      else
        match _deserialize_embeddings blob with
        | .error e => .error e
        | .ok emb =>
          match scoreRows qe t skipEmpty rest with
          | .error e => .error e
          | .ok acc =>
            if SqrtRat.lt (SqrtRat.ofRat t) (_cosine_similarity qe emb) then
              .ok (⟨r.id, _cosine_similarity qe emb⟩ :: acc)
            else .ok acc

/-- Score, sort descending (stable), truncate with Python slice semantics —
the tail every search call shares. -/
def searchPipeline (qe : List ℚ) (t : ℚ) (skipEmpty : Bool)
    (rows : List MeetingRow) (k : ℤ) : Except DBError (List Scored) :=
  match scoreRows qe t skipEmpty rows with
  | .error e => .error e
  | .ok s => .ok (pySlice k (sortBySimDesc s))

/-- `search_meetings` (database.py).  `resp` is the embedding provider's
response for the query text: `AIServices.get_embeddings` catches provider
failures internally, displays `st.error` and returns `[]`, upon which
`search_meetings` hits `if not query_embeddings: return []`.  The SQL
`WHERE embeddings IS NOT NULL` filter keeps rows with a stored blob; the
whole body is wrapped in `try/except` that displays the error and
returns `[]`. -/
def search_meetings (resp : Except Unit (List ℚ)) (store : List MeetingRow)
    (max_results : ℤ) : SearchOutcome :=
  match resp with
  | .error _ => ⟨[], some .providerError⟩
  | .ok qe =>
    if qe.isEmpty then ⟨[], none⟩
    else
      match searchPipeline qe (3/10) true
          (store.filter (fun r => r.embeddings.isSome)) max_results with
      | .error e => ⟨[], some e⟩
      | .ok l => ⟨l, none⟩

/-- `get_meeting_by_id` (database.py): `SELECT ... WHERE id = ?`, first row. -/
def get_meeting_by_id (store : List MeetingRow) (meeting_id : ℤ) : Option MeetingRow :=
  store.find? (fun r => r.id == meeting_id)

/-- `get_similar_meetings` (database.py): look up the meeting, bail out with
`[]` if absent or its blob is NULL/empty, deserialize its embedding, then
score all other rows (`WHERE id != ? AND embeddings IS NOT NULL`) with
threshold `0.2`, sort descending, truncate.  The `try/except` displays any
error and returns `[]`. -/
def get_similar_meetings (store : List MeetingRow) (meeting_id : ℤ)
    (max_results : ℤ) : SearchOutcome :=
  match get_meeting_by_id store meeting_id with
  | none => ⟨[], none⟩
  | some mrow =>
    match mrow.embeddings with
    | none => ⟨[], none⟩
    | some blob =>
      if blob.isEmpty then ⟨[], none⟩
      else
        match _deserialize_embeddings blob with
        | .error e => ⟨[], some e⟩
        | .ok qe =>
          match searchPipeline qe (2/10) false
              (store.filter (fun r => !(r.id == meeting_id) && r.embeddings.isSome))
              max_results with
          | .error e => ⟨[], some e⟩
          | .ok l => ⟨l, none⟩

/-!
Structural lemmas about the scoring loop and the pipeline tail.
-/

theorem deserialize_error_eq {b : List ℕ} {e : DBError}
    (h : _deserialize_embeddings b = .error e) : e = .malformedEncoding := by
  unfold _deserialize_embeddings at h
  split_ifs at h <;>
    first
    | exact (Except.error.inj h).symm
    | exact Except.noConfusion h

theorem scoreRows_error {qe : List ℚ} {t : ℚ} {g : Bool} {rows : List MeetingRow} {e : DBError}
    (h : scoreRows qe t g rows = .error e) : e = .malformedEncoding := by
  revert h
  induction rows generalizing e with
  | nil => exact fun h => Except.noConfusion h
  | cons r rest ih =>
    intro h
    rw [scoreRows] at h
    split at h
    · exact ih h
    · split at h
      · exact ih h
      · split at h
        next e' hd =>
          exact (Except.error.inj h) ▸ deserialize_error_eq hd
        next emb hd =>
          split at h
          next e' hrec =>
            exact (Except.error.inj h) ▸ ih hrec
          next acc hrec =>
            split_ifs at h <;> exact Except.noConfusion h

theorem scoreRows_mem_gt {qe : List ℚ} {t : ℚ} {g : Bool} {rows : List MeetingRow}
    {l : List Scored} (h : scoreRows qe t g rows = .ok l) :
    ∀ s ∈ l, SqrtRat.lt (SqrtRat.ofRat t) s.similarity = true := by
  induction rows generalizing l with
  | nil =>
    cases h
    intro s hs
    exact absurd hs (List.not_mem_nil s)
  | cons r rest ih =>
    rw [scoreRows] at h
    split at h
    · exact ih h
    · split at h
      · exact ih h
      · split at h
        next e' hd => exact Except.noConfusion h
        next emb hd =>
          split at h
          next e' hrec => exact Except.noConfusion h
          next acc hrec =>
            by_cases hlt : SqrtRat.lt (SqrtRat.ofRat t) (_cosine_similarity qe emb) = true
            · rw [if_pos hlt] at h
              cases h
              intro s hs
              rcases List.mem_cons.mp hs with hs | hs
              · rw [hs]
                exact hlt
              · exact ih hrec s hs
            · rw [if_neg hlt] at h
              cases h
              exact ih hrec

theorem scoreRows_mem_provenance {qe : List ℚ} {t : ℚ} {g : Bool} {rows : List MeetingRow}
    {l : List Scored} (h : scoreRows qe t g rows = .ok l) :
    ∀ s ∈ l, ∃ r ∈ rows, ∃ blob emb, r.embeddings = some blob ∧
      _deserialize_embeddings blob = .ok emb ∧
      s = ⟨r.id, _cosine_similarity qe emb⟩ := by
  induction rows generalizing l with
  | nil =>
    cases h
    intro s hs
    exact absurd hs (List.not_mem_nil s)
  | cons r rest ih =>
    have lift : (∀ s ∈ l, ∃ r' ∈ rest, ∃ blob emb, r'.embeddings = some blob ∧
        _deserialize_embeddings blob = .ok emb ∧
        s = ⟨r'.id, _cosine_similarity qe emb⟩) →
        ∀ s ∈ l, ∃ r' ∈ r :: rest, ∃ blob emb, r'.embeddings = some blob ∧
        _deserialize_embeddings blob = .ok emb ∧
        s = ⟨r'.id, _cosine_similarity qe emb⟩ := by
      intro hall s hs
      rcases hall s hs with ⟨r', hr', rest'⟩
      exact ⟨r', List.mem_cons_of_mem r hr', rest'⟩
    rw [scoreRows] at h
    split at h
    · exact lift (ih h)
    · rename_i blob hemb
      split at h
      · exact lift (ih h)
      · split at h
        next e' hd => exact Except.noConfusion h
        next emb hd =>
          split at h
          next e' hrec => exact Except.noConfusion h
          next acc hrec =>
            split_ifs at h
            · cases h
              intro s hs
              rcases List.mem_cons.mp hs with hs | hs
              · exact ⟨r, List.mem_cons_self r rest, blob, emb, hemb, hd, hs⟩
              · rcases ih hrec s hs with ⟨r', hr', rest'⟩
                exact ⟨r', List.mem_cons_of_mem r hr', rest'⟩
            · cases h
              exact lift (ih hrec)

theorem scoreRows_mem_of {qe : List ℚ} {t : ℚ} {g : Bool} {rows : List MeetingRow}
    {l : List Scored} {r : MeetingRow} {blob : List ℕ} {emb : List ℚ}
    (h : scoreRows qe t g rows = .ok l) (hr : r ∈ rows)
    (hb : r.embeddings = some blob) (hg : ¬(g = true ∧ blob = []))
    (hd : _deserialize_embeddings blob = .ok emb)
    (hlt : SqrtRat.lt (SqrtRat.ofRat t) (_cosine_similarity qe emb) = true) :
    (⟨r.id, _cosine_similarity qe emb⟩ : Scored) ∈ l := by
  induction rows generalizing l with
  | nil => exact absurd hr (List.not_mem_nil r)
  | cons a rest ih =>
    rw [scoreRows] at h
    rcases List.mem_cons.mp hr with hra | hra
    · subst hra
      split at h
      · next hnone => rw [hb] at hnone; exact Option.noConfusion hnone
      · rename_i blob' hemb
        rw [hb] at hemb
        have hblob : blob' = blob := (Option.some.inj hemb).symm
        subst hblob
        split at h
        · next hcond =>
          rcases Bool.and_eq_true_iff.mp hcond with ⟨hg1, hg2⟩
          exact absurd ⟨hg1, List.isEmpty_iff.mp hg2⟩ hg
        · split at h
          next e' hd' => rw [hd] at hd'; exact Except.noConfusion hd'
          next emb' hd' =>
            rw [hd] at hd'
            have hemb' : emb' = emb := (Except.ok.inj hd').symm
            subst hemb'
            split at h
            next e' hrec => exact Except.noConfusion h
            next acc hrec =>
              rw [if_pos hlt] at h
              cases h
              exact List.mem_cons_self _ _
    · split at h
      · exact ih h hra
      · split at h
        · exact ih h hra
        · split at h
          next e' hd' => exact Except.noConfusion h
          next emb' hd' =>
            split at h
            next e' hrec => exact Except.noConfusion h
            next acc hrec =>
              split_ifs at h
              · cases h
                exact List.mem_cons_of_mem _ (ih hrec hra)
              · cases h
                exact ih hrec hra

theorem sortBySimDesc_perm (l : List Scored) : (sortBySimDesc l).Perm l :=
  List.perm_insertionSort scoredGE l

theorem sortBySimDesc_sorted (l : List Scored) : (sortBySimDesc l).Pairwise scoredGE :=
  List.sorted_insertionSort scoredGE l

theorem sortBySimDesc_stable {a b : Scored} {l : List Scored}
    (hab : scoredGE a b) (h : [a, b].Sublist l) : [a, b].Sublist (sortBySimDesc l) :=
  List.pair_sublist_insertionSort hab h

theorem sortBySimDesc_length (l : List Scored) : (sortBySimDesc l).length = l.length :=
  List.length_insertionSort scoredGE l

theorem pySlice_zero {α : Type} (l : List α) : pySlice 0 l = [] := by
  unfold pySlice
  simp

theorem pySlice_nil {α : Type} (n : ℤ) : pySlice n ([] : List α) = [] := by
  unfold pySlice
  split_ifs <;> simp

theorem pySlice_sublist {α : Type} (n : ℤ) (l : List α) : (pySlice n l).Sublist l := by
  unfold pySlice
  split_ifs <;> exact List.take_sublist _ _

theorem length_pySlice_of_nonneg {α : Type} {n : ℤ} (l : List α) (h : 0 ≤ n) :
    ((pySlice n l).length : ℤ) ≤ n := by
  unfold pySlice
  rw [if_pos h]
  have h1 : (l.take n.toNat).length ≤ n.toNat := by
    rw [List.length_take]
    exact min_le_left _ _
  omega

theorem length_pySlice_of_neg {α : Type} {n : ℤ} (l : List α) (h : n < 0) :
    (pySlice n l).length = l.length - (-n).toNat := by
  unfold pySlice
  rw [if_neg (by omega)]
  rw [List.length_take]
  omega

theorem searchPipeline_error {qe : List ℚ} {t : ℚ} {g : Bool} {rows : List MeetingRow}
    {k : ℤ} {e : DBError} (h : searchPipeline qe t g rows k = .error e) :
    scoreRows qe t g rows = .error e := by
  unfold searchPipeline at h
  split at h
  · next e' hrec => rw [hrec]; exact congrArg Except.error (Except.error.inj h)
  · exact Except.noConfusion h

theorem searchPipeline_ok_elim {qe : List ℚ} {t : ℚ} {g : Bool} {rows : List MeetingRow}
    {k : ℤ} {l : List Scored} (h : searchPipeline qe t g rows k = .ok l) :
    ∃ s, scoreRows qe t g rows = .ok s ∧ l = pySlice k (sortBySimDesc s) := by
  unfold searchPipeline at h
  split at h
  · exact Except.noConfusion h
  · next s hrec => exact ⟨s, hrec, (Except.ok.inj h).symm⟩

theorem bytesToWords_length : ∀ b : List ℕ, (bytesToWords b).length = b.length / 4
  | [] => by simp [bytesToWords]
  | [_] => by simp [bytesToWords]
  | [_, _] => by simp [bytesToWords]
  | [_, _, _] => by simp [bytesToWords]
  | b0 :: b1 :: b2 :: b3 :: rest => by
    rw [bytesToWords]
    simp only [List.length_cons, bytesToWords_length rest]
    omega

theorem normSq_replicate_zero (n : ℕ) : normSq (List.replicate n 0) = 0 := by
  unfold normSq dotQ
  induction n with
  | zero => rfl
  | succ m ih =>
    rw [List.replicate_succ, List.zipWith_cons_cons, List.sum_cons]
    rw [show ((0:ℚ) * 0) = 0 by ring, zero_add]
    exact ih

/-- C2: decoding the encoding of any (finite-valued) embedding returns the
embedding element-wise, up to the precision loss of the 32-bit representation:
`decode (encode v) = v` with every element rounded to binary32
(`val32 ∘ round32` is exactly that rounding, expressed as a rational). -/
theorem claim_C2_roundtrip (v : List ℚ) :
    _deserialize_embeddings (_serialize_embeddings v) =
      .ok (v.map (fun x => val32 (round32 x))) := by
  by_cases hv : v.isEmpty
  · rw [List.isEmpty_iff.mp hv]
    rfl
  · unfold _serialize_embeddings
    rw [if_neg hv]
    have hlen : ((v.map round32).flatMap bytesOfWord).length = 4 * v.length := by
      rw [length_flatMap_bytesOfWord, List.length_map]
    have hvne : v ≠ [] := fun hc => by rw [hc] at hv; exact hv rfl
    have hpos : 0 < v.length := List.length_pos.mpr hvne
    have hne : ¬(((v.map round32).flatMap bytesOfWord).isEmpty = true) := by
      rw [List.isEmpty_iff]
      intro hc
      have h0 := congrArg List.length hc
      rw [hlen, List.length_nil] at h0
      omega
    unfold _deserialize_embeddings
    rw [if_neg hne, if_neg (by rw [hlen]; omega)]
    congr 1
    rw [bytesToWords_flatMap (v.map round32) (by
      intro w hw
      rcases List.mem_map.mp hw with ⟨x, _, hx⟩
      rw [← hx]
      exact round32_lt x)]
    rw [List.map_map]
    rfl

/-- C9: the encoding of an embedding is exactly `4 * len(v)` bytes long;
the empty embedding encodes to the empty byte sequence, and the empty byte
sequence decodes to the empty embedding. -/
theorem claim_C9_encode_length :
    (∀ v : List ℚ, (_serialize_embeddings v).length = 4 * v.length) ∧
    _serialize_embeddings [] = [] ∧
    _deserialize_embeddings [] = .ok [] :=
  ⟨length_serialize, rfl, rfl⟩

/-- C6: decoding fails with MalformedEncoding exactly when the byte length is
not a multiple of 4; on a multiple of 4 it succeeds with an embedding of
length `len / 4`, and the empty byte sequence decodes to the empty embedding. -/
theorem claim_C6_decode_errors :
    (∀ b : List ℕ,
       (_deserialize_embeddings b = .error .malformedEncoding ↔ b.length % 4 ≠ 0) ∧
       (b.length % 4 = 0 →
         ∃ l, _deserialize_embeddings b = .ok l ∧ l.length = b.length / 4)) ∧
    _deserialize_embeddings [] = .ok [] := by
  refine ⟨fun b => ⟨⟨?_, ?_⟩, ?_⟩, rfl⟩
  · intro h
    unfold _deserialize_embeddings at h
    split_ifs at h with h1 h2
    exact h2
  · intro h
    have hne : ¬(b.isEmpty = true) := by
      rw [List.isEmpty_iff]
      intro hc
      rw [hc] at h
      exact h rfl
    unfold _deserialize_embeddings
    rw [if_neg hne, if_pos h]
  · intro h
    by_cases hb : b.isEmpty = true
    · refine ⟨[], ?_, ?_⟩
      · unfold _deserialize_embeddings
        rw [if_pos hb]
      · rw [List.isEmpty_iff.mp hb]
        rfl
    · refine ⟨(bytesToWords b).map val32, ?_, ?_⟩
      · unfold _deserialize_embeddings
        rw [if_neg hb, if_neg (by omega)]
      · rw [List.length_map, bytesToWords_length]

/-- C5: with equal lengths, a zero Euclidean norm on either side makes
`_cosine_similarity` return `0.0` without any error (already at the level of
the un-caught computation), and the all-zero vector scores `0.0` against
everything — any list, of any length, including another zero vector. -/
theorem claim_C5_zero_norm :
    (∀ a b : List ℚ, a.length = b.length →
       Real.sqrt ((normSq a : ℚ) : ℝ) = 0 ∨ Real.sqrt ((normSq b : ℚ) : ℝ) = 0 →
       cosineSimExc a b = .ok (SqrtRat.ofRat 0) ∧
       _cosine_similarity a b = SqrtRat.ofRat 0) ∧
    (∀ (n : ℕ) (x : List ℚ),
       _cosine_similarity (List.replicate n 0) x = SqrtRat.ofRat 0) := by
  have norm_zero : ∀ v : List ℚ, Real.sqrt ((normSq v : ℚ) : ℝ) = 0 → normSq v = 0 := by
    intro v hv
    have h1 : ((normSq v : ℚ) : ℝ) ≤ 0 := Real.sqrt_eq_zero'.mp hv
    have h2 : (0:ℚ) ≤ normSq v := normSq_nonneg v
    have h3 : normSq v ≤ 0 := by exact_mod_cast h1
    linarith
  constructor
  · intro a b hl hz
    have hz' : normSq a = 0 ∨ normSq b = 0 := by
      rcases hz with hz | hz
      · exact Or.inl (norm_zero a hz)
      · exact Or.inr (norm_zero b hz)
    have hexc : cosineSimExc a b = .ok (SqrtRat.ofRat 0) := by
      unfold cosineSimExc
      rw [if_neg (by omega), if_pos hz']
    refine ⟨hexc, ?_⟩
    unfold _cosine_similarity
    rw [hexc]
  · intro n x
    unfold _cosine_similarity cosineSimExc
    by_cases hl : (List.replicate n 0 : List ℚ).length = x.length
    · rw [if_neg (by omega), if_pos (Or.inl (normSq_replicate_zero n))]
    · rw [if_pos (by omega)]

theorem mem_of_pipeline {qe : List ℚ} {t : ℚ} {g : Bool} {rows : List MeetingRow}
    {k : ℤ} {l : List Scored} {s : List Scored} (hs : scoreRows qe t g rows = .ok s)
    (h : searchPipeline qe t g rows k = .ok l) : ∀ x ∈ l, x ∈ s := by
  intro x hx
  rcases searchPipeline_ok_elim h with ⟨s', hs', hl⟩
  rw [hs] at hs'
  have hss : s' = s := (Except.ok.inj hs').symm
  rw [hss] at hl
  rw [hl] at hx
  have h1 : x ∈ sortBySimDesc s := (pySlice_sublist k _).subset hx
  exact (sortBySimDesc_perm s).subset h1

/-- C3: a candidate is kept by the scoring loop iff its cosine similarity is
strictly greater than the threshold (so an exact-threshold score is excluded);
every returned result scores strictly above the threshold; and a search run
with threshold `1.0` over candidates none of which scores above `1.0` returns
the empty sequence. -/
theorem claim_C3_threshold :
    (∀ (qe : List ℚ) (t : ℚ) (g : Bool) (rows : List MeetingRow) (l : List Scored)
       (r : MeetingRow) (blob : List ℕ) (emb : List ℚ),
       scoreRows qe t g rows = .ok l →
       r ∈ rows → r.embeddings = some blob → ¬(g = true ∧ blob = []) →
       _deserialize_embeddings blob = .ok emb →
       ((⟨r.id, _cosine_similarity qe emb⟩ : Scored) ∈ l ↔
         ((t : ℝ) < (_cosine_similarity qe emb).toReal))) ∧
    (∀ (qe : List ℚ) (t : ℚ) (g : Bool) (rows : List MeetingRow) (k : ℤ) (l : List Scored),
       searchPipeline qe t g rows k = .ok l →
       ∀ x ∈ l, (t : ℝ) < x.similarity.toReal) ∧
    (∀ (qe : List ℚ) (g : Bool) (rows : List MeetingRow) (k : ℤ) (l : List Scored),
       searchPipeline qe 1 g rows k = .ok l →
       (∀ (r : MeetingRow) (blob : List ℕ) (emb : List ℚ), r ∈ rows →
          r.embeddings = some blob → _deserialize_embeddings blob = .ok emb →
          (_cosine_similarity qe emb).toReal ≤ 1) →
       l = []) := by
  have part2 : ∀ (qe : List ℚ) (t : ℚ) (g : Bool) (rows : List MeetingRow) (k : ℤ)
      (l : List Scored), searchPipeline qe t g rows k = .ok l →
      ∀ x ∈ l, (t : ℝ) < x.similarity.toReal := by
    intro qe t g rows k l h x hx
    rcases searchPipeline_ok_elim h with ⟨s, hs, hl⟩
    have hxs : x ∈ s := mem_of_pipeline hs h x hx
    have hlt := scoreRows_mem_gt hs x hxs
    rw [SqrtRat.lt_iff, SqrtRat.toReal_ofRat] at hlt
    exact hlt
  refine ⟨?_, part2, ?_⟩
  · intro qe t g rows l r blob emb h hr hb hg hd
    constructor
    · intro hmem
      have hlt := scoreRows_mem_gt h _ hmem
      rw [SqrtRat.lt_iff, SqrtRat.toReal_ofRat] at hlt
      exact hlt
    · intro hgt
      refine scoreRows_mem_of h hr hb hg hd ?_
      rw [SqrtRat.lt_iff, SqrtRat.toReal_ofRat]
      exact hgt
  · intro qe g rows k l h hbound
    rcases searchPipeline_ok_elim h with ⟨s, hs, hl⟩
    rw [List.eq_nil_iff_forall_not_mem]
    intro x hx
    have hgt := part2 qe 1 g rows k l h x hx
    have hxs : x ∈ s := mem_of_pipeline hs h x hx
    rcases scoreRows_mem_provenance hs x hxs with ⟨r, hr, blob, emb, hb, hd, hxe⟩
    have hle := hbound r blob emb hr hb hd
    rw [hxe] at hgt
    simp only at hgt
    rw [Rat.cast_one] at hgt
    linarith

/-- C4 (amended): pipeline output is sorted by similarity in descending order;
ties are resolved stably (a pair in score-tie order in the survivor list stays
in that order after sorting, with no secondary key); and whenever
`limit ≥ 0` the output has at most `limit` entries.  (For a negative `limit`
the Python slice `results[:limit]` instead drops the last `|limit|` entries —
see the counterexample — which is what forces the `0 ≤ limit` proviso.) -/
theorem claim_C4_sorted_stable :
    (∀ (qe : List ℚ) (t : ℚ) (g : Bool) (rows : List MeetingRow) (k : ℤ)
       (l : List Scored), searchPipeline qe t g rows k = .ok l →
       l.Pairwise (fun a b => b.similarity.toReal ≤ a.similarity.toReal)) ∧
    (∀ (s : List Scored) (a b : Scored), [a, b].Sublist s →
       a.similarity.toReal = b.similarity.toReal →
       [a, b].Sublist (sortBySimDesc s)) ∧
    (∀ (qe : List ℚ) (t : ℚ) (g : Bool) (rows : List MeetingRow) (k : ℤ)
       (l : List Scored), 0 ≤ k → searchPipeline qe t g rows k = .ok l →
       (l.length : ℤ) ≤ k) := by
  refine ⟨?_, ?_, ?_⟩
  · intro qe t g rows k l h
    rcases searchPipeline_ok_elim h with ⟨s, hs, hl⟩
    have h1 : (sortBySimDesc s).Pairwise scoredGE := sortBySimDesc_sorted s
    have h2 : l.Pairwise scoredGE := by
      rw [hl]
      exact List.Pairwise.sublist (pySlice_sublist k _) h1
    refine h2.imp ?_
    intro a b hab
    unfold scoredGE at hab
    rw [SqrtRat.le_iff] at hab
    exact hab
  · intro s a b hsub heq
    refine sortBySimDesc_stable ?_ hsub
    unfold scoredGE
    rw [SqrtRat.le_iff, heq]
  · intro qe t g rows k l hk h
    rcases searchPipeline_ok_elim h with ⟨s, hs, hl⟩
    rw [hl]
    exact length_pySlice_of_nonneg _ hk

/-- C1 (amended): on a length mismatch the internal computation does raise a
DimensionMismatch (numpy's shape error), but `_cosine_similarity`'s own
`try/except` catches it and the function silently returns `0.0` — it never
propagates an error to its caller.  Consequently a search never aborts with a
DimensionMismatch: the only error that can escape the scoring loop is
MalformedEncoding; a mismatched candidate is merely scored `0.0` (and then
dropped by the positive threshold) while the rest of the search proceeds. -/
theorem claim_C1_mismatch :
    (∀ a b : List ℚ, a.length ≠ b.length →
       cosineSimExc a b = .error .dimensionMismatch ∧
       _cosine_similarity a b = SqrtRat.ofRat 0) ∧
    (∀ (qe : List ℚ) (t : ℚ) (g : Bool) (rows : List MeetingRow) (e : DBError),
       scoreRows qe t g rows = .error e → e = .malformedEncoding) := by
  refine ⟨?_, fun _ _ _ _ _ h => scoreRows_error h⟩
  intro a b hne
  have hexc : cosineSimExc a b = .error .dimensionMismatch := by
    unfold cosineSimExc
    rw [if_pos hne]
  refine ⟨hexc, ?_⟩
  unfold _cosine_similarity
  rw [hexc]

/-- C7 (amended): a search with `limit = 0` returns the empty sequence, an
empty candidate store returns the empty outcome with no error, and the
related-items search with `limit = 0` also returns the empty sequence; but a
NEGATIVE limit does not return the empty sequence — by Python slice
semantics `results[:limit]` it returns all survivors except the last
`|limit|`, whose length is `len(survivors) - |limit|` (clamped at zero). -/
theorem claim_C7_limits :
    (∀ (resp : Except Unit (List ℚ)) (store : List MeetingRow),
       (search_meetings resp store 0).results = []) ∧
    (∀ (qe : List ℚ) (k : ℤ), search_meetings (.ok qe) [] k = ⟨[], none⟩) ∧
    (∀ (store : List MeetingRow) (m : ℤ), (get_similar_meetings store m 0).results = []) ∧
    (∀ (qe : List ℚ) (t : ℚ) (g : Bool) (rows : List MeetingRow) (k : ℤ)
       (s l : List Scored), k < 0 → scoreRows qe t g rows = .ok s →
       searchPipeline qe t g rows k = .ok l →
       l.length = s.length - (-k).toNat) := by
  refine ⟨?_, ?_, ?_, ?_⟩
  · intro resp store
    rw [search_meetings.eq_def]
    split
    · rfl
    · split_ifs
      · rfl
      · split
        · rfl
        · next l hp =>
          rcases searchPipeline_ok_elim hp with ⟨s, hs, hl⟩
          show l = []
          rw [hl, pySlice_zero]
  · intro qe k
    rw [search_meetings.eq_def]
    dsimp only
    by_cases hqe : qe.isEmpty = true
    · rw [if_pos hqe]
    · rw [if_neg hqe]
      have hp : searchPipeline qe (3/10) true
          (([] : List MeetingRow).filter fun r => r.embeddings.isSome) k = .ok [] := by
        show (Except.ok (pySlice k (sortBySimDesc [])) : Except DBError (List Scored)) = .ok []
        rw [show sortBySimDesc [] = [] from rfl, pySlice_nil]
      simp only [hp]
  · intro store m
    rw [get_similar_meetings.eq_def]
    split
    · rfl
    · split
      · rfl
      · split_ifs
        · rfl
        · split
          · rfl
          · split
            · rfl
            · next l hp =>
              rcases searchPipeline_ok_elim hp with ⟨s, hs, hl⟩
              show l = []
              rw [hl, pySlice_zero]
  · intro qe t g rows k s l hk h1 h2
    rcases searchPipeline_ok_elim h2 with ⟨s', hs', hl⟩
    rw [h1] at hs'
    have hss : s' = s := (Except.ok.inj hs').symm
    rw [hss] at hl
    rw [hl, length_pySlice_of_neg _ hk, sortBySimDesc_length]

/-- C8: every failed search yields no results together with a displayed error
(`SearchOutcome.err = some _`), while a search whose scoring loop succeeds —
in particular one where simply no candidate beats the threshold — reports
`err = none`; the empty-but-successful outcome is therefore distinguishable
from every failure. -/
theorem claim_C8_error_reporting :
    (∀ (resp : Except Unit (List ℚ)) (store : List MeetingRow) (k : ℤ) (e : DBError),
       (search_meetings resp store k).err = some e →
       (search_meetings resp store k).results = []) ∧
    (∀ (store : List MeetingRow) (m k : ℤ) (e : DBError),
       (get_similar_meetings store m k).err = some e →
       (get_similar_meetings store m k).results = []) ∧
    (∀ (qe : List ℚ) (store : List MeetingRow) (k : ℤ) (l : List Scored),
       scoreRows qe (3/10) true (store.filter fun r => r.embeddings.isSome) = .ok l →
       (search_meetings (.ok qe) store k).err = none) := by
  refine ⟨?_, ?_, ?_⟩
  · intro resp store k e
    rw [search_meetings.eq_def]
    split
    · intro _
      rfl
    · split_ifs
      · intro _
        rfl
      · split
        · intro _
          rfl
        · intro h
          exact Option.noConfusion h
  · intro store m k e
    rw [get_similar_meetings.eq_def]
    split
    · intro _
      rfl
    · split
      · intro _
        rfl
      · split_ifs
        · intro _
          rfl
        · split
          · intro _
            rfl
          · split
            · intro _
              rfl
            · intro h
              exact Option.noConfusion h
  · intro qe store k l h
    rw [search_meetings.eq_def]
    dsimp only
    by_cases hqe : qe.isEmpty = true
    · rw [if_pos hqe]
    · rw [if_neg hqe]
      have hp : searchPipeline qe (3/10) true
          (store.filter fun r => r.embeddings.isSome) k =
          .ok (pySlice k (sortBySimDesc l)) := by
        unfold searchPipeline
        rw [h]
      simp only [hp]

/-- C10: no entry returned by the related-items search carries the queried
meeting's own id: the SQL `WHERE id != ?` filter removes the meeting from its
candidate set before scoring, and every result originates from that set. -/
theorem claim_C10_self_excluded :
    ∀ (store : List MeetingRow) (m k : ℤ),
      ((get_similar_meetings store m k).results.all (fun x => !(x.id == m))) = true := by
  intro store m k
  rw [get_similar_meetings.eq_def]
  split
  · rfl
  · split
    · rfl
    · split_ifs
      · rfl
      · split
        · rfl
        · split
          · rfl
          · next l hp =>
            rcases searchPipeline_ok_elim hp with ⟨s, hs, hl⟩
            show l.all (fun x => !(x.id == m)) = true
            rw [List.all_eq_true]
            intro x hx
            have hxs : x ∈ s := mem_of_pipeline hs hp x hx
            rcases scoreRows_mem_provenance hs x hxs with ⟨r, hr, blob, emb, hb, hd, hxe⟩
            have hrf := (List.mem_filter.mp hr).2
            rcases Bool.and_eq_true_iff.mp hrf with ⟨h1, _⟩
            rw [hxe]
            simpa using h1

/-- C1 counterexample: query `[1.0]` against a store holding a 2-dimensional
vector (id 1) and a 1-dimensional vector (id 2).  `_cosine_similarity` on the
mismatched pair returns the number `0.0` instead of failing, and the search
neither aborts nor loses the other row: it succeeds with a non-empty result
and no error — refuting both halves of the claim. -/
theorem claim_C1_counterexample :
    _cosine_similarity [1] [1, 1] = SqrtRat.ofRat 0 ∧
    (search_meetings (.ok [1])
       [⟨1, some [0, 0, 128, 63, 0, 0, 128, 63]⟩, ⟨2, some [0, 0, 128, 63]⟩]
       10).results ≠ [] ∧
    (search_meetings (.ok [1])
       [⟨1, some [0, 0, 128, 63, 0, 0, 128, 63]⟩, ⟨2, some [0, 0, 128, 63]⟩]
       10).err = none := by
  refine ⟨?_, ?_, ?_⟩ <;>
    norm_num [search_meetings, searchPipeline, scoreRows, _deserialize_embeddings,
      bytesToWords, val32, _cosine_similarity, cosineSimExc, dotQ, normSq,
      SqrtRat.lt, SqrtRat.le, SqrtRat.ofRat, sortBySimDesc, pySlice, scoredGE,
      List.filter, List.insertionSort, List.orderedInsert]

/-- C1 witness: instantiating the amended claim — `cosineSimExc` on `[1]`
vs `[1,2]` raises DimensionMismatch internally while the caught result is
`0.0`, and a loop failure on a malformed 1-byte blob carries
MalformedEncoding, never DimensionMismatch. -/
theorem claim_C1_witness :
    (cosineSimExc [1] [1, 2] = .error .dimensionMismatch ∧
     _cosine_similarity [1] [1, 2] = SqrtRat.ofRat 0) ∧
    DBError.malformedEncoding = DBError.malformedEncoding :=
  ⟨claim_C1_mismatch.1 [1] [1, 2] (by norm_num),
   claim_C1_mismatch.2 [1] 0 false [⟨5, some [0]⟩] .malformedEncoding (by
     norm_num [scoreRows, _deserialize_embeddings])⟩

/-- C3 witness: on the one-row store whose vector decodes to `[1.0]` and
query `[1.0]`, the scored row is kept exactly because its similarity exceeds
the threshold `0.5`; and the threshold-1.0 search over an empty candidate
list returns the empty sequence. -/
theorem claim_C3_witness :
    ((⟨5, _cosine_similarity [1] [1]⟩ : Scored) ∈
        [(⟨5, _cosine_similarity [1] [1]⟩ : Scored)] ↔
      ((1/2 : ℚ) : ℝ) < (_cosine_similarity [1] [1]).toReal) ∧
    ([] : List Scored) = [] := by
  constructor
  · exact claim_C3_threshold.1 [1] (1/2) false [⟨5, some [0, 0, 128, 63]⟩]
      [⟨5, _cosine_similarity [1] [1]⟩] ⟨5, some [0, 0, 128, 63]⟩ [0, 0, 128, 63] [1]
      (by norm_num [scoreRows, _deserialize_embeddings, bytesToWords, val32,
        _cosine_similarity, cosineSimExc, dotQ, normSq, SqrtRat.lt, SqrtRat.le,
        SqrtRat.ofRat])
      (by simp) rfl (by simp)
      (by norm_num [_deserialize_embeddings, bytesToWords, val32])
  · exact claim_C3_threshold.2.2 [1] false [] 5 []
      (by norm_num [searchPipeline, scoreRows, sortBySimDesc, pySlice,
        List.insertionSort])
      (by simp)

/-- C4 counterexample: a search called with `limit = -1` over two matching
candidates returns one entry — `results[:-1]` in Python drops the last
element rather than truncating to at most `limit` entries, so "the result
contains at most limit entries" fails for negative limits. -/
theorem claim_C4_counterexample :
    ¬(((search_meetings (.ok [1])
        [⟨1, some [0, 0, 128, 63]⟩, ⟨2, some [0, 0, 128, 63]⟩]
        (-1)).results.length : ℤ) ≤ -1) := by
  have h : (search_meetings (.ok [1])
      [⟨1, some [0, 0, 128, 63]⟩, ⟨2, some [0, 0, 128, 63]⟩]
      (-1)).results.length = 1 := by
    norm_num [search_meetings, searchPipeline, scoreRows, _deserialize_embeddings,
      bytesToWords, val32, _cosine_similarity, cosineSimExc, dotQ, normSq,
      SqrtRat.lt, SqrtRat.le, SqrtRat.ofRat, sortBySimDesc, pySlice, scoredGE,
      List.filter, List.insertionSort, List.orderedInsert]
  rw [h]
  norm_num

/-- C4 witness: instantiating the amended claim on a one-row pipeline run
with `limit = 5` (sortedness and the limit bound) and on a two-element tie
(stability). -/
theorem claim_C4_witness :
    ([(⟨1, _cosine_similarity [1] [1]⟩ : Scored)].Pairwise
       (fun a b => b.similarity.toReal ≤ a.similarity.toReal)) ∧
    ([(⟨7, SqrtRat.ofRat 1⟩ : Scored), ⟨7, SqrtRat.ofRat 1⟩].Sublist
       (sortBySimDesc [⟨7, SqrtRat.ofRat 1⟩, ⟨7, SqrtRat.ofRat 1⟩])) ∧
    ((([(⟨1, _cosine_similarity [1] [1]⟩ : Scored)].length : ℤ)) ≤ 5) := by
  have hp : searchPipeline [1] (3/10) true [⟨1, some [0, 0, 128, 63]⟩] 5 =
      .ok [⟨1, _cosine_similarity [1] [1]⟩] := by
    norm_num [searchPipeline, scoreRows, _deserialize_embeddings, bytesToWords,
      val32, _cosine_similarity, cosineSimExc, dotQ, normSq, SqrtRat.lt,
      SqrtRat.le, SqrtRat.ofRat, sortBySimDesc, pySlice, scoredGE,
      List.insertionSort, List.orderedInsert]
  refine ⟨?_, ?_, ?_⟩
  · exact claim_C4_sorted_stable.1 [1] (3/10) true [⟨1, some [0, 0, 128, 63]⟩] 5 _ hp
  · exact claim_C4_sorted_stable.2.1 [⟨7, SqrtRat.ofRat 1⟩, ⟨7, SqrtRat.ofRat 1⟩]
      ⟨7, SqrtRat.ofRat 1⟩ ⟨7, SqrtRat.ofRat 1⟩ (List.Sublist.refl _) rfl
  · exact claim_C4_sorted_stable.2.2 [1] (3/10) true [⟨1, some [0, 0, 128, 63]⟩] 5 _
      (by norm_num) hp

/-- C5 witness: the zero vector `[0,0]` against `[3,4]` — equal lengths, left
norm exactly zero — scores `0.0` with no error, and `replicate 2 0` against
the length-mismatched `[5]` also scores `0.0`. -/
theorem claim_C5_witness :
    (cosineSimExc [0, 0] [3, 4] = .ok (SqrtRat.ofRat 0) ∧
     _cosine_similarity [0, 0] [3, 4] = SqrtRat.ofRat 0) ∧
    _cosine_similarity (List.replicate 2 0) [5] = SqrtRat.ofRat 0 :=
  ⟨claim_C5_zero_norm.1 [0, 0] [3, 4] rfl
     (Or.inl (by norm_num [normSq, dotQ, Real.sqrt_zero])),
   claim_C5_zero_norm.2 2 [5]⟩

/-- C6 witness: three bytes fail to decode with MalformedEncoding
(`3 % 4 ≠ 0`), while four bytes decode to a single element. -/
theorem claim_C6_witness :
    _deserialize_embeddings [0, 0, 0] = .error .malformedEncoding ∧
    ∃ l, _deserialize_embeddings [0, 0, 0, 0] = .ok l ∧
      l.length = ([0, 0, 0, 0] : List ℕ).length / 4 :=
  ⟨((claim_C6_decode_errors.1 [0, 0, 0]).1).mpr (by decide),
   (claim_C6_decode_errors.1 [0, 0, 0, 0]).2 (by decide)⟩

/-- C7 counterexample: the related-items search called with `limit = -1` on a
store with two matching sibling rows returns a non-empty sequence — Python's
`results[:-1]` drops only the last survivor — refuting "limit ≤ 0 yields an
empty sequence". -/
theorem claim_C7_counterexample :
    (get_similar_meetings
       [⟨1, some [0, 0, 128, 63]⟩, ⟨2, some [0, 0, 128, 63]⟩, ⟨3, some [0, 0, 128, 63]⟩]
       1 (-1)).results ≠ [] := by
  norm_num [get_similar_meetings, get_meeting_by_id, searchPipeline, scoreRows,
    _deserialize_embeddings, bytesToWords, val32, _cosine_similarity, cosineSimExc,
    dotQ, normSq, SqrtRat.lt, SqrtRat.le, SqrtRat.ofRat, sortBySimDesc, pySlice,
    scoredGE, List.filter, List.find?, List.insertionSort, List.orderedInsert]

/-- C7 witness: instantiating the amended claim's negative-limit clause — a
two-survivor run with `limit = -1` returns `2 - 1 = 1` entry. -/
theorem claim_C7_witness :
    ([(⟨1, SqrtRat.ofRat 1⟩ : Scored)].length) =
      ([(⟨1, SqrtRat.ofRat 1⟩ : Scored), ⟨2, SqrtRat.ofRat 1⟩].length) -
        ((-(-1 : ℤ)).toNat) := by
  refine claim_C7_limits.2.2.2 [1] 0 false
    [⟨1, some [0, 0, 128, 63]⟩, ⟨2, some [0, 0, 128, 63]⟩] (-1)
    [⟨1, SqrtRat.ofRat 1⟩, ⟨2, SqrtRat.ofRat 1⟩] [⟨1, SqrtRat.ofRat 1⟩]
    (by norm_num) ?_ ?_
  · norm_num [scoreRows, _deserialize_embeddings, bytesToWords, val32,
      _cosine_similarity, cosineSimExc, dotQ, normSq, SqrtRat.lt, SqrtRat.le,
      SqrtRat.ofRat]
  · norm_num [searchPipeline, scoreRows, _deserialize_embeddings, bytesToWords,
      val32, _cosine_similarity, cosineSimExc, dotQ, normSq, SqrtRat.lt,
      SqrtRat.le, SqrtRat.ofRat, sortBySimDesc, pySlice, scoredGE,
      List.insertionSort, List.orderedInsert]

/-- C8 witness: a store whose only row has a malformed 1-byte blob makes the
search display MalformedEncoding, and by the claim its result list is empty. -/
theorem claim_C8_witness :
    (search_meetings (.ok [1]) [⟨1, some [0]⟩] 5).results = [] :=
  claim_C8_error_reporting.1 (.ok [1]) [⟨1, some [0]⟩] 5 .malformedEncoding (by
    norm_num [search_meetings, searchPipeline, scoreRows, _deserialize_embeddings,
      List.filter])
